import Mathlib

/-!
Verification of the aggregation engine of the Olympic-Data-Analysis (FloatChat)
repository: the client-side binning, monthly time-series smoothing and
bounds-keyed fetch cache found in
`frontend/web/src/components/DataVisualization.tsx` and in the map component
(`src/unnamed/part_001`, `fetchProfiles`).

Embedding conventions:
* JS numbers are modelled as `ℚ`; `Math.floor` is `Int.floor`,
  `x.toFixed(3)` keying is modelled by the rounded value `round (1000 * x)`
  (JS `toFixed` rounds to the nearest multiple of `10⁻³`, ties away from the
  lower value), and `parseInt(String(x))` is truncation toward zero
  (exact for every float printed in positional notation).
* A JS object used as a dictionary is an association list processed by a fold;
  `Array.prototype.sort` (stable since ES2019) is a stable insertion sort.
* `a.localeCompare(b)` on the ASCII year-month keys orders by code point,
  modelled by a lexicographic comparison of the character lists.
* The asynchronous `fetchProfiles` of the map component is a state transition
  on the cache/profiles state; the network calls are oracles of type
  `Except Unit (List Profile)` (`.ok data` models a response whose parsed
  `json.results || []` is `data`; `.error` models a thrown fetch error).
  The returned `ℕ` counts invocations of the main bounds-query fetcher.
-/

/-- The record type of the dashboard (interface `Profile` in
`DataVisualization.tsx`): id, latitude, longitude, depth, temperature,
salinity, month, year. -/
structure Profile where
  id : ℕ
  latitude : ℚ
  longitude : ℚ
  depth : ℚ
  temperature : ℚ
  salinity : ℚ
  month : ℤ
  year : ℤ
deriving DecidableEq

/-! ### Generic association-list accumulation

A JS statement `acc[k] = f(acc[k])` (with a default for absent keys) updates
the first entry with key `k` of the association list, or appends a new entry.
`accumBy` is the generic `for`-loop accumulating every element of the input
into such a dictionary. -/

/-- First-match lookup in an association list (JS property read). -/
def lookupAcc [DecidableEq κ] (k : κ) : List (κ × β) → Option β
  | [] => none
  | (k', b) :: rest => if k' = k then some b else lookupAcc k rest

/-- JS property write `acc[k] = ...`: update the entry in place, or append a
new entry with initial value `b0` (JS object insertion order). -/
def upsertAcc [DecidableEq κ] (k : κ) (f : β → β) (b0 : β) : List (κ × β) → List (κ × β)
  | [] => [(k, b0)]
  | (k', b) :: rest => if k' = k then (k', f b) :: rest else (k', b) :: upsertAcc k f b0 rest

/-- The accumulation loop: `for (a of l) acc[key a] = upd a (acc[key a] ?? …)`,
starting from an empty dictionary; `b0 a` is the value stored when the key of
`a` is fresh, `upd a` rewrites the stored value otherwise. -/
def accumBy [DecidableEq κ] (key : α → κ) (upd : α → β → β) (b0 : α → β)
    (l : List α) : List (κ × β) :=
  l.foldl (fun acc a => upsertAcc (key a) (upd a) (b0 a) acc) []

/-- The value `accumBy` associates to a key, computed directly from the
sublist of inputs having that key. -/
def runAcc (upd : α → β → β) (b0 : α → β) : List α → Option β
  | [] => none
  | a :: as => some (as.foldl (fun b a' => upd a' b) (b0 a))

/-! ### Stable sorting

`Array.prototype.sort` with an ascending numeric (or lexicographic)
comparator is stable (ES2019); both call sites sort by a key. We model it
with a stable insertion sort: an element is inserted before the first
element it is `r`-related to, so with `r` the non-strict key order the
original order among key-equal elements is preserved. -/

def insertBy (r : α → α → Prop) [DecidableRel r] (a : α) : List α → List α
  | [] => [a]
  | b :: bs => if r a b then a :: b :: bs else b :: insertBy r a bs

def sortBy (r : α → α → Prop) [DecidableRel r] : List α → List α
  | [] => []
  | a :: as => insertBy r a (sortBy r as)

/-! ### Binning (`tempBins` / `salBins`, `DataVisualization.tsx` 165-188)

```js
const bins = {}
const w = Math.max(0.1, tempBinWidth)
for (const p of filteredProfiles) {
  const bin = Math.floor(p.temperature / w) * w
  bins[bin] = (bins[bin] || 0) + 1
}
return Object.entries(bins).map(([t, c]) => ({temp: Number(t), count: c}))
  .sort((a, b) => a.temp - b.temp)
```
`Number(String(x)) = x` for every JS float, so the entry key round-trips
exactly; the final sort makes the enumeration order of `Object.entries`
irrelevant (bucket keys are distinct). -/

/-- The bucket a value is assigned to: `Math.floor(v / w) * w`. -/
def bucketOf (w v : ℚ) : ℚ := ⌊v / w⌋ * w

/-- The histogram loop above, over the already-projected field values. -/
def computeHistogramQ (vals : List ℚ) (width : ℚ) : List (ℚ × ℕ) :=
  let w := max (1/10) width
  sortBy (fun x y : ℚ × ℕ => x.1 ≤ y.1)
    (accumBy (fun v => bucketOf w v) (fun _ c => c + 1) (fun _ => 1) vals)

/-- Temperature histogram (`tempBins`): the loop reads `p.temperature`. -/
def tempBins (ps : List Profile) (width : ℚ) : List (ℚ × ℕ) :=
  computeHistogramQ (ps.map Profile.temperature) width

/-- Salinity histogram (`salBins`): the loop reads `p.salinity`. -/
def salBins (ps : List Profile) (width : ℚ) : List (ℚ × ℕ) :=
  computeHistogramQ (ps.map Profile.salinity) width

/-- JS `ToNumber(null) = 0`: arithmetic involving a `null` field coerces it
to `0` (`null / w` evaluates to `0`). `none` models a record whose field is
`null`; profiles arrive from untyped JSON (`json.results || []`) with no
validation, so such records are runtime-possible. -/
def jsNum (v : Option ℚ) : ℚ := v.getD 0

/-- The same temperature-histogram loop run on records whose field may be
`null`: `Math.floor(p.temperature / w) * w` evaluates with `null` coerced
to `0`, so the record is still counted (in bucket `0`). -/
def tempBinsJS (vals : List (Option ℚ)) (width : ℚ) : List (ℚ × ℕ) :=
  let w := max (1/10) width
  sortBy (fun x y : ℚ × ℕ => x.1 ≤ y.1)
    (accumBy (fun v => bucketOf w (jsNum v)) (fun _ c => c + 1) (fun _ => 1) vals)

/-! ### Monthly time series with moving average
(`timeSeriesTemp` / `timeSeriesSal`, `DataVisualization.tsx` 191-236)

```js
const groups = {}
for (const p of filteredProfiles) {
  const ym = `${p.year}-${String(p.month).padStart(2, '0')}`
  if (!groups[ym]) groups[ym] = { sum: 0, n: 0 }
  groups[ym].sum += p.temperature
  groups[ym].n += 1
}
const series = Object.entries(groups)
  .map(([ym, v]) => ({ ym, avg: v.sum / v.n }))
  .sort((a, b) => a.ym.localeCompare(b.ym))
const w = Math.max(1, Math.floor(maWindow))
const half = Math.floor((w - 1) / 2)
const out = series.map((row, i) => {
  const start = Math.max(0, i - half)
  const end = Math.min(series.length - 1, i + half)
  const slice = series.slice(start, end + 1)
  const ma = slice.reduce((acc, r) => acc + r.avg, 0) / slice.length
  return { ...row, ma }
})
```
-/

/-- JS `String(month).padStart(2, '0')`: left-pad with zeros to length 2. -/
def padTwo (s : String) : String :=
  String.mk (List.replicate (2 - s.length) '0' ++ s.data)

/-- The group key `` `${p.year}-${String(p.month).padStart(2, '0')}` ``. -/
def ymKey (y m : ℤ) : String :=
  toString y ++ "-" ++ padTwo (toString m)

/-- Code-point lexicographic `≤` on character lists: the effect of
`a.localeCompare(b)` on the ASCII keys produced by `ymKey`. -/
def charListLe : List Char → List Char → Bool
  | [], _ => true
  | _ :: _, [] => false
  | a :: as, b :: bs => if a = b then charListLe as bs else decide (a < b)

/-- Code-point lexicographic `<` on character lists. -/
def charListLt : List Char → List Char → Bool
  | [], [] => false
  | [], _ :: _ => true
  | _ :: _, [] => false
  | a :: as, b :: bs => if a = b then charListLt as bs else decide (a < b)

/-- Grouping/averaging/sorting steps of the time series, generic in the key
and value projections (the two call sites differ only in the field read). -/
def monthlySeriesG (ym : α → String) (value : α → ℚ) (rows : List α) :
    List (String × ℚ) :=
  sortBy (fun x y : String × ℚ => charListLe x.1.data y.1.data = true)
    ((accumBy ym (fun a sn => (sn.1 + value a, sn.2 + 1)) (fun a => (value a, (1 : ℕ)))
        rows).map (fun e => (e.1, e.2.1 / (e.2.2 : ℚ))))

/-- The monthly `(ym, avg)` series of a profile list for a given field. -/
def monthlySeries (value : Profile → ℚ) (ps : List Profile) : List (String × ℚ) :=
  monthlySeriesG (fun p => ymKey p.year p.month) value ps

/-- The coerced window size `Math.max(1, Math.floor(maWindow))`. -/
def wEff (mw : ℚ) : ℕ := (max 1 ⌊mw⌋).toNat

/-- JS `Math.floor((w - 1) / 2)` for the coerced window size `w ≥ 1`. -/
def halfOf (w : ℕ) : ℕ := (w - 1) / 2

/-- JS `Math.max(0, i - half)` (truncated subtraction on `ℕ`). -/
def windowStartIdx (half i : ℕ) : ℕ := i - half

/-- JS `Math.min(series.length - 1, i + half)`. -/
def windowStopIdx (n half i : ℕ) : ℕ := min (n - 1) (i + half)

/-- Number of elements of `series.slice(start, end + 1)`
(for an index `i < n` the slice is entirely in range). -/
def windowLen (n half i : ℕ) : ℕ :=
  windowStopIdx n half i + 1 - windowStartIdx half i

/-- One output row: the row plus the centered moving average `ma` of the
`avg` column over the clamped window around `i`. -/
def smoothOne (series : List (String × ℚ)) (half i : ℕ) (row : String × ℚ) :
    String × ℚ × ℚ :=
  let slice := (series.drop (windowStartIdx half i)).take (windowLen series.length half i)
  (row.1, row.2, (slice.map Prod.snd).sum / (slice.length : ℚ))

/-- The full time-series computation for a given field. -/
def timeSeriesOf (value : Profile → ℚ) (ps : List Profile) (mw : ℚ) :
    List (String × ℚ × ℚ) :=
  let series := monthlySeries value ps
  series.mapIdx (fun i row => smoothOne series (halfOf (wEff mw)) i row)

/-- The memo `timeSeriesTemp` (`DataVisualization.tsx` 191-212). -/
def timeSeriesTemp (ps : List Profile) (mw : ℚ) : List (String × ℚ × ℚ) :=
  timeSeriesOf Profile.temperature ps mw

/-- The memo `timeSeriesSal` (`DataVisualization.tsx` 215-236). -/
def timeSeriesSal (ps : List Profile) (mw : ℚ) : List (String × ℚ × ℚ) :=
  timeSeriesOf Profile.salinity ps mw

/-- The grouping loop run on rows `(year, month, value)` whose value may be
`null`: `groups[ym].sum += p.temperature` adds `0` when the field is `null`
(JS `number + null`), while `groups[ym].n += 1` still counts the record. -/
def monthlySeriesJS (rows : List (ℤ × ℤ × Option ℚ)) : List (String × ℚ) :=
  monthlySeriesG (fun r => ymKey r.1 r.2.1) (fun r => jsNum r.2.2) rows

/-- Chronological (strict) order on `(year, month)`. -/
def chronoLT (y m y' m' : ℤ) : Prop := y < y' ∨ (y = y' ∧ m < m')

/-! ### Depth distribution (`depthDistribution` / `depthData`,
`DataVisualization.tsx` 140-154)

```js
const acc = {}
for (const profile of filteredProfiles) {
  const depth = profile.depth
  acc[depth] = (acc[depth] || 0) + 1
}
// depthData:
return Object.entries(depthDistribution).map(([depth, count]) => ({
  depth: parseInt(depth), count
})).sort((a, b) => a.depth - b.depth)
```
`Object.entries` enumerates integer-like keys in ascending numeric order
before the remaining keys in insertion order; the subsequent stable sort by
truncated depth makes the final order agree with this model except among
entries sharing a truncated value — an order no stated property depends
on. -/

/-- JS `parseInt(String(x))` truncates toward zero (exact for floats printed
in positional notation). -/
def truncQ (q : ℚ) : ℤ := if q < 0 then ⌈q⌉ else ⌊q⌋

/-- The exact-depth occurrence counts (`depthDistribution`). -/
def depthDistribution (ps : List Profile) : List (ℚ × ℕ) :=
  accumBy (fun p => p.depth) (fun _ c => c + 1) (fun _ => (1 : ℕ)) ps

/-- The memo `depthData`: entries of the distribution with `parseInt`-converted
depth labels, sorted ascending by label. -/
def depthData (ps : List Profile) : List (ℤ × ℕ) :=
  sortBy (fun x y : ℤ × ℕ => x.1 ≤ y.1)
    ((depthDistribution ps).map (fun e => (truncQ e.1, e.2)))

/-! ### Bounds-keyed fetch cache (`fetchProfiles`, `src/unnamed/part_001`
lines 640-764)

The cache key is built from the **raw** map bounds
(`b.getSouth().toFixed(3)`, …) joined with the filter values; the clamping
`Math.max(-90, Math.min(90, b.getSouth()))` etc. happens **after** the
cache lookup and feeds only the query parameters. On a key hit the cached
records are returned and no fetch is issued. On a miss the main fetch runs;
on success its data is stored under the key (and displayed); if that data
is empty, a secondary unbounded fetch runs, whose successful result is
displayed and stored under the dedicated `fallback` key. On a thrown
fetch error, nothing is cached and the `fallback` entry (if any) is
displayed; otherwise the displayed profiles are left unchanged. -/

/-- The map-viewport bounds. -/
structure Bounds where
  south : ℚ
  north : ℚ
  west : ℚ
  east : ℚ
deriving DecidableEq

/-- The filter values joined into the cache key (`filter.temperature ??
any` slots, with `none` modelling an unset filter (keyed as `any`). -/
structure Filters where
  temperature : Option ℚ
  salinityMin : Option ℚ
  salinityMax : Option ℚ
  monthMin : Option ℚ
  monthMax : Option ℚ
  yearMin : Option ℚ
  yearMax : Option ℚ
deriving DecidableEq

/-- JS `x.toFixed(3)` as a quantity: the integer of thousandths JS prints
(nearest multiple of `10⁻³`, ties toward the larger value). Two coordinates
produce the same `toFixed(3)` string iff they round to the same value, with
one exception this model coarsens away: JS prints `-0.000` for tiny
negative values and `0.000` for tiny positive ones, two distinct strings
with the same rounded value. -/
def toFixed3 (q : ℚ) : ℤ := round (1000 * q)

/-- A cache key: either the joined string of the four rounded raw bounds
and the seven filter slots (comma-separated, hence injective in its
components), or the literal `fallback` key used by the empty-result
fallback path (never equal to a bounds key). -/
inductive CacheKey where
  | bounds (south west north east : ℤ) (f : Filters)
  | fallbackSlot
deriving DecidableEq

/-- Key construction of `fetchProfiles` (lines 661-667): raw, unclamped
bounds, in the order south, west, north, east, plus the filters. -/
def cacheKeyOf (b : Bounds) (f : Filters) : CacheKey :=
  CacheKey.bounds (toFixed3 b.south) (toFixed3 b.west) (toFixed3 b.north) (toFixed3 b.east) f

/-- The clamping of lines 682-685 (used only for the query parameters). -/
def clampBounds (b : Bounds) : Bounds :=
  { south := max (-90) (min 90 b.south)
    north := max (-90) (min 90 b.north)
    west := max (-180) (min 180 b.west)
    east := max (-180) (min 180 b.east) }

/-- The mutable state of the map component relevant to the cache:
`cacheRef.current` (a `Map`, modelled as an association list with
`Map.get`/`Map.set` = `lookupAcc`/`upsertAcc`) and the displayed
`profiles`. -/
structure EngineState where
  cache : List (CacheKey × List Profile)
  profiles : List Profile
deriving DecidableEq

/-- One run of `fetchProfiles` (lines 647-764). `mainFetch` is the result
of the bounds query (`.ok data` = parsed `json.results || []`; `.error` =
thrown error); `fbFetch` is the result of the `limit=200` fallback query
issued when the main query returns no rows. Returns the new state and the
number of main-fetch invocations (0 on a cache hit, else 1). -/
def fetchProfiles (b : Bounds) (f : Filters)
    (mainFetch fbFetch : Except Unit (List Profile)) (st : EngineState) :
    EngineState × ℕ :=
  let key := cacheKeyOf b f
  match lookupAcc key st.cache with
  | some cached => ({ st with profiles := cached }, 0)
  | none =>
    match mainFetch with
    | Except.ok data =>
      let st1 : EngineState :=
        { cache := upsertAcc key (fun _ => data) data st.cache, profiles := data }
      if data.isEmpty then
        match fbFetch with
        | Except.ok fdata =>
          ({ cache := upsertAcc CacheKey.fallbackSlot (fun _ => fdata) fdata st1.cache,
             profiles := fdata }, 1)
        | Except.error _ => (st1, 1)
      else (st1, 1)
    | Except.error _ =>
      match lookupAcc CacheKey.fallbackSlot st.cache with
      | some fdata => ({ st with profiles := fdata }, 1)
      | none => (st, 1)

/-! ### Concrete fixtures used by counterexamples and witnesses -/

/-- A profile with the given id, depth, temperature, salinity, month and
year (position fields zero). -/
def mkProfile (i : ℕ) (d t s : ℚ) (m y : ℤ) : Profile :=
  { id := i, latitude := 0, longitude := 0, depth := d, temperature := t,
    salinity := s, month := m, year := y }

/-- The all-unset filter set (every slot keyed as `any`). -/
def noFilters : Filters :=
  { temperature := none, salinityMin := none, salinityMax := none,
    monthMin := none, monthMax := none, yearMin := none, yearMax := none }

/-- Four records in the four distinct months 2024-01 … 2024-04. -/
def psW4 : List Profile :=
  [mkProfile 1 0 0 0 1 2024, mkProfile 2 0 0 0 2 2024,
   mkProfile 3 0 0 0 3 2024, mkProfile 4 0 0 0 4 2024]

/-- Four-call scenario: a successful fetch for one key (records
`[mkProfile 1 …]`), a successful fetch for a second key (`[mkProfile 2 …]`),
a cache hit back on the first key, then a failing fetch under a third
key. -/
def cexS1 : EngineState × ℕ :=
  fetchProfiles (Bounds.mk 10 20 30 40) noFilters
    (Except.ok [mkProfile 1 0 0 0 1 2024]) (Except.error ()) (EngineState.mk [] [])

/-- Second step of the scenario: success under a different key. -/
def cexS2 : EngineState × ℕ :=
  fetchProfiles (Bounds.mk 11 20 30 40) noFilters
    (Except.ok [mkProfile 2 0 0 0 1 2024]) (Except.error ()) cexS1.1

/-- Third step: the first key again (a cache hit). -/
def cexS3 : EngineState × ℕ :=
  fetchProfiles (Bounds.mk 10 20 30 40) noFilters
    (Except.error ()) (Except.error ()) cexS2.1

/-- Fourth step: a failing fetch under a fresh key. -/
def cexS4 : EngineState × ℕ :=
  fetchProfiles (Bounds.mk 12 20 30 40) noFilters
    (Except.error ()) (Except.error ()) cexS3.1

/-! ### Lemmas and claim theorems -/

theorem lookupAcc_upsert_self [DecidableEq κ] (k : κ) (f : β → β) (b0 : β)
    (acc : List (κ × β)) :
    lookupAcc k (upsertAcc k f b0 acc) =
      some ((lookupAcc k acc).elim b0 f) := by
  induction acc with
  | nil => simp [lookupAcc, upsertAcc]
  | cons e rest ih =>
    obtain ⟨k', b⟩ := e
    by_cases h : k' = k
    · simp [lookupAcc, upsertAcc, h]
    · simp [lookupAcc, upsertAcc, h, ih]

theorem lookupAcc_upsert_ne [DecidableEq κ] {k k' : κ} (f : β → β) (b0 : β)
    (acc : List (κ × β)) (h : k' ≠ k) :
    lookupAcc k' (upsertAcc k f b0 acc) = lookupAcc k' acc := by
  induction acc with
  | nil => simp [lookupAcc, upsertAcc, Ne.symm h]
  | cons e rest ih =>
    obtain ⟨k'', b⟩ := e
    by_cases hk : k'' = k
    · subst hk
      simp [lookupAcc, upsertAcc, Ne.symm h]
    · simp [lookupAcc, upsertAcc, hk, ih]

theorem lookupAcc_eq_none_iff [DecidableEq κ] (k : κ) (acc : List (κ × β)) :
    lookupAcc k acc = none ↔ k ∉ acc.map Prod.fst := by
  induction acc with
  | nil => simp [lookupAcc]
  | cons e rest ih =>
    obtain ⟨k', b⟩ := e
    by_cases h : k' = k
    · simp [lookupAcc, h]
    · simp [lookupAcc, h, ih, not_or, Ne.symm h]

theorem keys_upsert_mem [DecidableEq κ] (k k' : κ) (f : β → β) (b0 : β)
    (acc : List (κ × β)) :
    k' ∈ (upsertAcc k f b0 acc).map Prod.fst ↔ k' = k ∨ k' ∈ acc.map Prod.fst := by
  induction acc with
  | nil => simp [upsertAcc]
  | cons e rest ih =>
    obtain ⟨k'', b⟩ := e
    by_cases h : k'' = k
    · subst h
      by_cases h' : k' = k'' <;> simp [upsertAcc, h', or_assoc]
    · simp [upsertAcc, h, ih]
      tauto

theorem nodup_keys_upsert [DecidableEq κ] (k : κ) (f : β → β) (b0 : β)
    (acc : List (κ × β)) (h : (acc.map Prod.fst).Nodup) :
    ((upsertAcc k f b0 acc).map Prod.fst).Nodup := by
  induction acc with
  | nil => simp [upsertAcc]
  | cons e rest ih =>
    obtain ⟨k', b⟩ := e
    simp only [List.map_cons, List.nodup_cons] at h
    by_cases hk : k' = k
    · simpa [upsertAcc, hk, List.nodup_cons] using h
    · simp only [upsertAcc, if_neg hk, List.map_cons, List.nodup_cons]
      refine ⟨?_, ih h.2⟩
      intro hmem
      rcases (keys_upsert_mem k k' f b0 rest).1 hmem with h1 | h1
      · exact hk h1
      · exact h.1 h1

theorem mem_iff_lookupAcc [DecidableEq κ] {k : κ} {b : β} {acc : List (κ × β)}
    (h : (acc.map Prod.fst).Nodup) :
    (k, b) ∈ acc ↔ lookupAcc k acc = some b := by
  induction acc with
  | nil => simp [lookupAcc]
  | cons e rest ih =>
    obtain ⟨k', b'⟩ := e
    simp only [List.map_cons, List.nodup_cons] at h
    by_cases hk : k' = k
    · subst hk
      have hl : lookupAcc k' ((k', b') :: rest) = some b' := by simp [lookupAcc]
      rw [hl]
      constructor
      · intro hmem
        rcases List.mem_cons.1 hmem with heq | hmem'
        · cases heq
          rfl
        · exact absurd (List.mem_map_of_mem Prod.fst hmem') h.1
      · intro hb
        cases Option.some.inj hb
        exact List.mem_cons_self _ _
    · simp only [lookupAcc, if_neg hk, List.mem_cons, Prod.mk.injEq]
      rw [← ih h.2]
      constructor
      · rintro (⟨he, -⟩ | hm)
        · exact absurd he.symm hk
        · exact hm
      · exact fun hm => Or.inr hm

theorem accumBy_append_single [DecidableEq κ] (key : α → κ) (upd : α → β → β)
    (b0 : α → β) (l : List α) (a : α) :
    accumBy key upd b0 (l ++ [a]) =
      upsertAcc (key a) (upd a) (b0 a) (accumBy key upd b0 l) := by
  simp [accumBy, List.foldl_append]

theorem runAcc_append_single (upd : α → β → β) (b0 : α → β) (l : List α) (a : α) :
    runAcc upd b0 (l ++ [a]) =
      some ((runAcc upd b0 l).elim (b0 a) (upd a)) := by
  cases l with
  | nil => simp [runAcc]
  | cons x xs => simp [runAcc, List.foldl_append]

theorem lookupAcc_accumBy [DecidableEq κ] (key : α → κ) (upd : α → β → β)
    (b0 : α → β) (l : List α) (k : κ) :
    lookupAcc k (accumBy key upd b0 l) =
      runAcc upd b0 (l.filter (fun a => decide (key a = k))) := by
  induction l using List.reverseRecOn with
  | nil => simp [accumBy, lookupAcc, runAcc]
  | append_singleton xs a ih =>
    rw [accumBy_append_single, List.filter_append]
    by_cases hk : key a = k
    · subst hk
      rw [lookupAcc_upsert_self, ih]
      simp [runAcc_append_single]
    · rw [lookupAcc_upsert_ne _ _ _ (fun hh => hk hh.symm), ih]
      simp [hk]

theorem nodup_keys_accumBy [DecidableEq κ] (key : α → κ) (upd : α → β → β)
    (b0 : α → β) (l : List α) :
    ((accumBy key upd b0 l).map Prod.fst).Nodup := by
  induction l using List.reverseRecOn with
  | nil => simp [accumBy]
  | append_singleton xs a ih =>
    rw [accumBy_append_single]
    exact nodup_keys_upsert _ _ _ _ ih

theorem mem_keys_accumBy [DecidableEq κ] (key : α → κ) (upd : α → β → β)
    (b0 : α → β) (l : List α) (k : κ) :
    k ∈ (accumBy key upd b0 l).map Prod.fst ↔ ∃ a ∈ l, key a = k := by
  rw [← not_iff_not, ← lookupAcc_eq_none_iff, lookupAcc_accumBy]
  rcases hf : l.filter (fun a => decide (key a = k)) with - | ⟨x, xs⟩
  · simp only [runAcc, List.filter_eq_nil_iff] at hf ⊢
    simp only [decide_eq_true_eq] at hf
    simpa using hf
  · constructor
    · intro hr
      simp [runAcc] at hr
    · intro hno
      have hx : x ∈ l.filter (fun a => decide (key a = k)) := by
        rw [hf]
        exact List.mem_cons_self _ _
      rw [List.mem_filter] at hx
      exact absurd ⟨x, hx.1, by simpa using hx.2⟩ hno

theorem mem_accumBy_iff [DecidableEq κ] (key : α → κ) (upd : α → β → β)
    (b0 : α → β) (l : List α) (k : κ) (b : β) :
    (k, b) ∈ accumBy key upd b0 l ↔
      runAcc upd b0 (l.filter (fun a => decide (key a = k))) = some b := by
  rw [mem_iff_lookupAcc (nodup_keys_accumBy key upd b0 l), lookupAcc_accumBy]

/-- Counting payload: the fold `c ↦ c + 1` starting at `1` counts the list. -/
theorem runAcc_count_cons (x : α) (xs : List α) :
    runAcc (fun _ c => c + 1) (fun _ => (1 : ℕ)) (x :: xs) = some (x :: xs).length := by
  have hfold : ∀ (as : List α) (m : ℕ), as.foldl (fun c _ => c + 1) m = m + as.length := by
    intro as
    induction as with
    | nil => simp
    | cons y ys ih =>
      intro m
      simp [ih, Nat.add_comm, Nat.add_assoc, Nat.add_left_comm]
  simp [runAcc, hfold, Nat.add_comm]

/-- Sum/count payload: the fold `(s, n) ↦ (s + value a, n + 1)` starting at
`(value a, 1)` computes the sum of values and the length. -/
theorem runAcc_sum_count_cons (value : α → ℚ) (x : α) (xs : List α) :
    runAcc (fun a sn => (sn.1 + value a, sn.2 + 1)) (fun a => (value a, (1 : ℕ))) (x :: xs) =
      some (((x :: xs).map value).sum, (x :: xs).length) := by
  have hfold : ∀ (as : List α) (s : ℚ) (n : ℕ),
      as.foldl (fun sn a' => (sn.1 + value a', sn.2 + 1)) (s, n) =
        (s + (as.map value).sum, n + as.length) := by
    intro as
    induction as with
    | nil => simp
    | cons y ys ih =>
      intro s n
      simp [ih, Nat.add_comm, Nat.add_assoc, Nat.add_left_comm, add_comm, add_assoc,
        add_left_comm]
  simp [runAcc, hfold, Nat.add_comm]

/-- The total of all counts stored by the counting accumulation is the length
of the input list. -/
theorem sum_counts_accumBy [DecidableEq κ] (key : α → κ) (l : List α) :
    (((accumBy key (fun _ c => c + 1) (fun _ => (1 : ℕ)) l).map Prod.snd).sum) = l.length := by
  have hup : ∀ (k : κ) (acc : List (κ × ℕ)),
      ((upsertAcc k (fun c => c + 1) 1 acc).map Prod.snd).sum =
        ((acc.map Prod.snd).sum) + 1 := by
    intro k acc
    induction acc with
    | nil => simp [upsertAcc]
    | cons e rest ih =>
      obtain ⟨k', c⟩ := e
      by_cases hk : k' = k
      · simp [upsertAcc, hk, Nat.add_assoc, Nat.add_comm, Nat.add_left_comm]
      · simp [upsertAcc, hk, ih, Nat.add_assoc, Nat.add_comm, Nat.add_left_comm]
  induction l using List.reverseRecOn with
  | nil => simp [accumBy]
  | append_singleton xs a ih =>
    rw [accumBy_append_single, hup]
    simp [ih]

theorem insertBy_perm (r : α → α → Prop) [DecidableRel r] (a : α) (l : List α) :
    (insertBy r a l).Perm (a :: l) := by
  induction l with
  | nil => exact List.Perm.refl _
  | cons b bs ih =>
    by_cases h : r a b
    · simp [insertBy, h]
    · simp only [insertBy, if_neg h]
      exact (ih.cons b).trans (List.Perm.swap a b bs)

theorem sortBy_perm (r : α → α → Prop) [DecidableRel r] (l : List α) :
    (sortBy r l).Perm l := by
  induction l with
  | nil => exact List.Perm.refl _
  | cons a as ih =>
    exact (insertBy_perm r a (sortBy r as)).trans (ih.cons a)

theorem insertBy_pairwise (r : α → α → Prop) [DecidableRel r]
    (htot : ∀ a b, r a b ∨ r b a) (htrans : ∀ a b c, r a b → r b c → r a c)
    (a : α) (l : List α) (h : l.Pairwise r) : (insertBy r a l).Pairwise r := by
  induction l with
  | nil => simp [insertBy]
  | cons b bs ih =>
    rcases List.pairwise_cons.1 h with ⟨hb, hbs⟩
    by_cases hr : r a b
    · simp only [insertBy, if_pos hr]
      refine List.pairwise_cons.2 ⟨?_, h⟩
      intro x hx
      rcases List.mem_cons.1 hx with rfl | hx'
      · exact hr
      · exact htrans a b x hr (hb x hx')
    · simp only [insertBy, if_neg hr]
      refine List.pairwise_cons.2 ⟨?_, ih hbs⟩
      intro x hx
      rcases List.mem_cons.1 ((insertBy_perm r a bs).mem_iff.1 hx) with rfl | h1
      · exact (htot x b).resolve_left hr
      · exact hb x h1

theorem sortBy_pairwise (r : α → α → Prop) [DecidableRel r]
    (htot : ∀ a b, r a b ∨ r b a) (htrans : ∀ a b c, r a b → r b c → r a c)
    (l : List α) : (sortBy r l).Pairwise r := by
  induction l with
  | nil => simp [sortBy]
  | cons a as ih => exact insertBy_pairwise r htot htrans a (sortBy r as) ih

theorem mem_sortBy (r : α → α → Prop) [DecidableRel r] (l : List α) (a : α) :
    a ∈ sortBy r l ↔ a ∈ l :=
  (sortBy_perm r l).mem_iff

theorem sortBy_pairwise_lt [LinearOrder κ] (l : List (κ × β))
    (h : (l.map Prod.fst).Nodup) :
    (sortBy (fun x y : κ × β => x.1 ≤ y.1) l).Pairwise (fun x y => x.1 < y.1) := by
  have hle := sortBy_pairwise (fun x y : κ × β => x.1 ≤ y.1)
    (fun a b => le_total a.1 b.1) (fun a b c hab hbc => le_trans hab hbc) l
  have hnd : ((sortBy (fun x y : κ × β => x.1 ≤ y.1) l).map Prod.fst).Nodup := by
    rw [List.Perm.nodup_iff ((sortBy_perm _ l).map Prod.fst)]
    exact h
  have hne : (sortBy (fun x y : κ × β => x.1 ≤ y.1) l).Pairwise (fun x y => x.1 ≠ y.1) :=
    List.pairwise_map.1 hnd
  exact (hle.and hne).imp (fun hh => lt_of_le_of_ne hh.1 hh.2)

theorem eq_of_perm_of_pairwise_lt [LinearOrder κ] {l₁ l₂ : List (κ × β)}
    (hp : l₁.Perm l₂) (h₁ : l₁.Pairwise (fun x y => x.1 < y.1))
    (h₂ : l₂.Pairwise (fun x y => x.1 < y.1)) : l₁ = l₂ := by
  haveI : IsAntisymm (κ × β) (fun x y => x.1 < y.1) :=
    ⟨fun a b hab hba => (lt_asymm hab hba).elim⟩
  exact List.eq_of_perm_of_sorted hp h₁ h₂

theorem computeHistogramQ_mem_iff (vals : List ℚ) (width : ℚ) (b : ℚ) (c : ℕ) :
    (b, c) ∈ computeHistogramQ vals width ↔
      (0 < c ∧ c = (vals.filter (fun v => bucketOf (max (1/10) width) v = b)).length) := by
  rw [computeHistogramQ]
  rw [mem_sortBy, mem_accumBy_iff]
  rcases hf : vals.filter (fun v => decide (bucketOf (max (1/10) width) v = b)) with - | ⟨x, xs⟩
  · simp [runAcc, hf]
    omega
  · rw [runAcc_count_cons]
    simp only [Option.some.injEq, hf, List.length_cons]
    omega

theorem computeHistogramQ_pairwise_lt (vals : List ℚ) (width : ℚ) :
    (computeHistogramQ vals width).Pairwise (fun x y => x.1 < y.1) := by
  rw [computeHistogramQ]
  exact sortBy_pairwise_lt _ (nodup_keys_accumBy _ _ _ _)

theorem computeHistogramQ_perm_invariant {vals vals' : List ℚ} (width : ℚ)
    (hp : vals.Perm vals') :
    computeHistogramQ vals width = computeHistogramQ vals' width := by
  refine eq_of_perm_of_pairwise_lt ?_ (computeHistogramQ_pairwise_lt vals width)
    (computeHistogramQ_pairwise_lt vals' width)
  have hnd1 : (computeHistogramQ vals width).Nodup := by
    have := nodup_keys_accumBy (fun v => bucketOf (max (1/10) width) v)
      (fun _ c => c + 1) (fun _ => (1 : ℕ)) vals
    have h2 : ((computeHistogramQ vals width).map Prod.fst).Nodup := by
      rw [computeHistogramQ]
      rw [List.Perm.nodup_iff ((sortBy_perm _ _).map Prod.fst)]
      exact this
    exact h2.of_map
  have hnd2 : (computeHistogramQ vals' width).Nodup := by
    have := nodup_keys_accumBy (fun v => bucketOf (max (1/10) width) v)
      (fun _ c => c + 1) (fun _ => (1 : ℕ)) vals'
    have h2 : ((computeHistogramQ vals' width).map Prod.fst).Nodup := by
      rw [computeHistogramQ]
      rw [List.Perm.nodup_iff ((sortBy_perm _ _).map Prod.fst)]
      exact this
    exact h2.of_map
  rw [List.perm_ext_iff_of_nodup hnd1 hnd2]
  intro e
  obtain ⟨b, c⟩ := e
  rw [computeHistogramQ_mem_iff, computeHistogramQ_mem_iff,
    (hp.filter (fun v => decide (bucketOf (max (1/10) width) v = b))).length_eq]

/-- Total of all bin counts is the number of accumulated values. -/
theorem computeHistogramQ_sum_counts (vals : List ℚ) (width : ℚ) :
    ((computeHistogramQ vals width).map Prod.snd).sum = vals.length := by
  rw [computeHistogramQ]
  rw [((sortBy_perm _ _).map Prod.snd).sum_eq]
  exact sum_counts_accumBy _ _

/-- Claim C1 (amended): the cache key of `fetchProfiles` is built from the
raw, unclamped bounds — each of south, west, north, east taken to three
decimals — joined with the filter values; the clamping to valid geographic
ranges happens only after the cache lookup and feeds only the query
parameters. Two calls share a cache key iff their raw bounds agree after
rounding to three decimals and their filters are equal. -/
theorem cacheKey_from_raw_bounds (b b' : Bounds) (f f' : Filters) :
    cacheKeyOf b f = cacheKeyOf b' f' ↔
      (toFixed3 b.south = toFixed3 b'.south ∧ toFixed3 b.west = toFixed3 b'.west ∧
        toFixed3 b.north = toFixed3 b'.north ∧ toFixed3 b.east = toFixed3 b'.east ∧
        f = f') := by
  simp [cacheKeyOf]

/-- Claim C1 counterexample: bounds with south 95 resp. 91 clamp to the
same effective bounds, but their cache keys differ (keys are computed from
the raw bounds, before clamping), and after a successful fetch under the
first bounds a call under the second still invokes the fetcher. -/
theorem cacheKey_clamp_shared_cex :
    clampBounds (Bounds.mk 95 96 10 20) = clampBounds (Bounds.mk 91 96 10 20) ∧
    cacheKeyOf (Bounds.mk 95 96 10 20) noFilters ≠
      cacheKeyOf (Bounds.mk 91 96 10 20) noFilters ∧
    (fetchProfiles (Bounds.mk 91 96 10 20) noFilters (Except.ok []) (Except.error ())
        (fetchProfiles (Bounds.mk 95 96 10 20) noFilters
          (Except.ok [mkProfile 1 0 0 0 1 2024]) (Except.error ())
          (EngineState.mk [] [])).1).2 = 1 := by
  refine ⟨?_, ?_, ?_⟩
  · simp only [clampBounds]
    norm_num
  · simp only [cacheKeyOf, toFixed3, ne_eq, CacheKey.bounds.injEq]
    norm_num [round_eq]
  · norm_num [fetchProfiles, cacheKeyOf, toFixed3, round_eq, lookupAcc, upsertAcc]

/-- Claim C3 (amended): on a cache-key hit `fetchProfiles` returns the
stored records immediately without invoking the fetcher (no stale-check, no
re-validation). Two calls whose bounds and filters map to the same key
cause exactly one fetcher invocation provided the key is initially absent
and the fetcher of the first call succeeds (any successful result, even an empty
one, is cached); a failed fetch caches nothing, so a repeated call after a
failure invokes the fetcher again. -/
theorem cache_hit_suppresses_fetch (st : EngineState) (b : Bounds) (f : Filters)
    (data : List Profile) (fb g g' : Except Unit (List Profile))
    (h : lookupAcc (cacheKeyOf b f) st.cache = none) :
    (∀ (st' : EngineState) (v : List Profile),
        lookupAcc (cacheKeyOf b f) st'.cache = some v →
          fetchProfiles b f g g' st' = ({ st' with profiles := v }, 0)) ∧
    (fetchProfiles b f (Except.ok data) fb st).2 = 1 ∧
    lookupAcc (cacheKeyOf b f) (fetchProfiles b f (Except.ok data) fb st).1.cache =
      some data ∧
    (fetchProfiles b f g g' (fetchProfiles b f (Except.ok data) fb st).1).2 = 0 ∧
    (fetchProfiles b f g g' (fetchProfiles b f (Except.ok data) fb st).1).1.profiles =
      data := by
  have hhit : ∀ (st' : EngineState) (v : List Profile),
      lookupAcc (cacheKeyOf b f) st'.cache = some v →
        fetchProfiles b f g g' st' = ({ st' with profiles := v }, 0) := by
    intro st' v hv
    simp [fetchProfiles, hv]
  have hkey : lookupAcc (cacheKeyOf b f)
      (fetchProfiles b f (Except.ok data) fb st).1.cache = some data := by
    simp only [fetchProfiles, h]
    by_cases hd : data.isEmpty
    · rw [if_pos hd]
      cases fb with
      | ok fdata =>
        dsimp only
        rw [lookupAcc_upsert_ne _ _ _ (fun hh => CacheKey.noConfusion hh),
          lookupAcc_upsert_self, h]
        rfl
      | error e =>
        dsimp only
        rw [lookupAcc_upsert_self, h]
        rfl
    · rw [if_neg hd]
      dsimp only
      rw [lookupAcc_upsert_self, h]
      rfl
  have hcount : (fetchProfiles b f (Except.ok data) fb st).2 = 1 := by
    simp only [fetchProfiles, h]
    by_cases hd : data.isEmpty
    · rw [if_pos hd]
      cases fb <;> rfl
    · rw [if_neg hd]
  refine ⟨hhit, hcount, hkey, ?_, ?_⟩
  · rw [hhit _ data hkey]
  · rw [hhit _ data hkey]

/-- Witness for the amended C3 at a concrete state: the empty cache misses,
the successful fetch is the sole invocation, and the repeated call hits. -/
theorem cache_hit_suppresses_fetch_witness :
    lookupAcc (cacheKeyOf (Bounds.mk 10 20 30 40) noFilters)
      (EngineState.mk [] []).cache = none ∧
    cexS1.2 = 1 ∧
    (fetchProfiles (Bounds.mk 10 20 30 40) noFilters (Except.error ()) (Except.error ())
      cexS1.1).2 = 0 ∧
    (fetchProfiles (Bounds.mk 10 20 30 40) noFilters (Except.error ()) (Except.error ())
      cexS1.1).1.profiles = [mkProfile 1 0 0 0 1 2024] := by
  have h := cache_hit_suppresses_fetch (EngineState.mk [] [])
    (Bounds.mk 10 20 30 40) noFilters [mkProfile 1 0 0 0 1 2024]
    (Except.error ()) (Except.error ()) (Except.error ()) rfl
  exact ⟨rfl, h.2.1, h.2.2.2.1, h.2.2.2.2⟩

/-- Claim C3 counterexample: two calls with identical bounds and filters
(hence the same key) whose fetcher fails both invoke the fetcher — a failed
fetch creates no cache entry, so the claimed "exactly one fetcher invocation
for any sequence of calls" is false. -/
theorem failed_fetch_refetches_cex :
    (fetchProfiles (Bounds.mk 0 0 0 0) noFilters (Except.error ()) (Except.error ())
      (EngineState.mk [] [])).2 = 1 ∧
    (fetchProfiles (Bounds.mk 0 0 0 0) noFilters (Except.error ()) (Except.error ())
      (fetchProfiles (Bounds.mk 0 0 0 0) noFilters (Except.error ()) (Except.error ())
        (EngineState.mk [] [])).1).2 = 1 := by
  norm_num [fetchProfiles, lookupAcc]

/-- Claim C2 (amended): when the fetcher fails, no cache entry is created
for the requested key, and the call displays the cached `fallback` entry
if present — a slot written only when a successful fetch returned zero
records and the secondary unbounded fetch succeeded — and otherwise leaves
the previously displayed profiles unchanged. After a successful non-empty
fetch, a later failing call under a different key thus keeps the currently
displayed records (which are not necessarily the most recent successful
result) rather than showing an empty sequence. -/
theorem fetch_failure_fallback (st : EngineState) (b : Bounds) (f : Filters)
    (fb : Except Unit (List Profile))
    (h : lookupAcc (cacheKeyOf b f) st.cache = none) :
    (fetchProfiles b f (Except.error ()) fb st).1.cache = st.cache ∧
    (fetchProfiles b f (Except.error ()) fb st).2 = 1 ∧
    (fetchProfiles b f (Except.error ()) fb st).1.profiles =
      (lookupAcc CacheKey.fallbackSlot st.cache).getD st.profiles := by
  simp only [fetchProfiles, h]
  cases hfb : lookupAcc CacheKey.fallbackSlot st.cache <;> simp [hfb]

/-- Witness for the amended C2: a failing fetch on an empty cache leaves
the displayed profiles unchanged. -/
theorem fetch_failure_fallback_witness :
    lookupAcc (cacheKeyOf (Bounds.mk 0 0 0 0) noFilters)
      (EngineState.mk [] [mkProfile 1 0 0 0 1 2024]).cache = none ∧
    (fetchProfiles (Bounds.mk 0 0 0 0) noFilters (Except.error ()) (Except.error ())
      (EngineState.mk [] [mkProfile 1 0 0 0 1 2024])).1.profiles =
      [mkProfile 1 0 0 0 1 2024] := by
  refine ⟨rfl, ?_⟩
  have h := fetch_failure_fallback (EngineState.mk [] [mkProfile 1 0 0 0 1 2024])
    (Bounds.mk 0 0 0 0) noFilters (Except.error ()) rfl
  simpa using h.2.2

/-- Claim C2 counterexample: after a successful fetch of `[mkProfile 1 …]`
under key 1, a successful fetch of `[mkProfile 2 …]` under key 2, and a
cache hit back on key 1, a failing fetch under a third key displays
`[mkProfile 1 …]` — the claimed "most recent successful result computed
under any prior key" would be `[mkProfile 2 …]`; no last-good slot exists
(the `fallback` entry is only written by the empty-result path). -/
theorem boundsKey_ne_fallback (s w n e : ℤ) (f : Filters) :
    (CacheKey.bounds s w n e f = CacheKey.fallbackSlot) = False :=
  eq_false (fun hh => CacheKey.noConfusion hh)

theorem fetch_failure_last_good_cex :
    cexS2.1.profiles = [mkProfile 2 0 0 0 1 2024] ∧
    cexS4.1.profiles = [mkProfile 1 0 0 0 1 2024] ∧
    mkProfile 1 0 0 0 1 2024 ≠ mkProfile 2 0 0 0 1 2024 := by
  refine ⟨?_, ?_, by simp [mkProfile]⟩
  · norm_num [cexS2, cexS1, fetchProfiles, cacheKeyOf, toFixed3, round_eq,
      lookupAcc, upsertAcc, noFilters, boundsKey_ne_fallback]
  · norm_num [cexS4, cexS3, cexS2, cexS1, fetchProfiles, cacheKeyOf, toFixed3,
      round_eq, lookupAcc, upsertAcc, noFilters, boundsKey_ne_fallback]

/-- Claim C5 (confirmed): for every record list and width, `tempBins` and
`salBins` are the histogram of the projected field values; the histogram
coerces the width to `w = max(0.1, width)`, the entry stored for bucket `b`
is present iff some value is assigned to `b = ⌊v / w⌋ * w` and carries the
exact number of such values, the accumulation is independent of input
order, and the buckets are returned sorted (strictly) ascending by bucket
value. -/
theorem histogram_correct (ps : List Profile) (width : ℚ) :
    tempBins ps width = computeHistogramQ (ps.map Profile.temperature) width ∧
    salBins ps width = computeHistogramQ (ps.map Profile.salinity) width ∧
    (∀ vals : List ℚ, ∀ b c, ((b, c) ∈ computeHistogramQ vals width ↔
      (0 < c ∧ c = (vals.filter (fun v => bucketOf (max (1/10) width) v = b)).length))) ∧
    (∀ vals : List ℚ, (computeHistogramQ vals width).Pairwise (fun x y => x.1 < y.1)) ∧
    (∀ vals vals' : List ℚ, vals.Perm vals' →
      computeHistogramQ vals width = computeHistogramQ vals' width) :=
  ⟨rfl, rfl, fun vals b c => computeHistogramQ_mem_iff vals width b c,
    fun vals => computeHistogramQ_pairwise_lt vals width,
    fun _ _ hp => computeHistogramQ_perm_invariant width hp⟩

/-- Witness for C5 on the worked example of the spec (§8.7): values 10.2, 10.8,
11.3 with width 1 give buckets 10 (count 2) and 11 (count 1), and a
transposed input yields the same histogram. -/
theorem histogram_correct_witness :
    computeHistogramQ [(51 : ℚ)/5, 54/5, 113/10] 1 =
      computeHistogramQ [(54 : ℚ)/5, 51/5, 113/10] 1 ∧
    ((10 : ℚ), 2) ∈ computeHistogramQ [(51 : ℚ)/5, 54/5, 113/10] 1 ∧
    ((11 : ℚ), 1) ∈ computeHistogramQ [(51 : ℚ)/5, 54/5, 113/10] 1 := by
  refine ⟨(histogram_correct [] 1).2.2.2.2 _ _ (List.Perm.swap _ _ _), ?_, ?_⟩
  · rw [(histogram_correct [] 1).2.2.1]
    norm_num [bucketOf, List.filter, max_def]
  · rw [(histogram_correct [] 1).2.2.1]
    norm_num [bucketOf, List.filter, max_def]

/-- Claim C7 (amended): no invalid-record filtering exists — the
aggregation loops assume every field numeric (the TypeScript `Profile`
type) and read the field directly. A record whose field value is `null` is
not excluded: JS arithmetic coerces `null` to 0, so the record is counted
in bucket `⌊0 / w⌋ * w = 0` by the histogram and contributes value 0 (while
still incrementing the divisor of the month) to the monthly averages; no error
is raised — aggregating records with `null` fields behaves exactly like
aggregating the same records with `null` replaced by 0. -/
theorem invalid_records_not_filtered (vals : List (Option ℚ)) (width : ℚ)
    (rows : List (ℤ × ℤ × Option ℚ)) :
    tempBinsJS vals width = computeHistogramQ (vals.map jsNum) width ∧
    monthlySeriesJS rows =
      monthlySeriesG (fun r => ymKey r.1 r.2.1) (fun r : ℤ × ℤ × ℚ => r.2.2)
        (rows.map (fun r => (r.1, r.2.1, jsNum r.2.2))) := by
  constructor
  · simp [tempBinsJS, computeHistogramQ, accumBy, List.foldl_map]
  · simp [monthlySeriesJS, monthlySeriesG, accumBy, List.foldl_map]

/-- Claim C7 counterexample: a record with a `null` temperature is not
silently excluded — the histogram counts it in bucket 0, and in the
monthly series it drags the monthly average from 10 down to 5. -/
theorem null_record_contributes_cex :
    tempBinsJS [none] 1 = [(0, 1)] ∧
    monthlySeriesJS [(2024, 1, some 10), (2024, 1, none)] = [("2024-01", 5)] := by
  have hk : ymKey 2024 1 = "2024-01" := by decide
  constructor
  · norm_num [tempBinsJS, accumBy, upsertAcc, bucketOf, jsNum, sortBy, insertBy]
  · norm_num [monthlySeriesJS, monthlySeriesG, accumBy, upsertAcc, jsNum, hk,
      sortBy, insertBy]

/-- Claim C8 (amended): the sum of the bin counts equals the **total**
number of input records — a record with a `null` field is coerced to 0 and
counted in bucket 0, not excluded, so the total is not restricted to
records with a non-null field. -/
theorem bin_counts_total (ps : List Profile) (vals : List (Option ℚ)) (width : ℚ) :
    ((tempBins ps width).map Prod.snd).sum = ps.length ∧
    ((salBins ps width).map Prod.snd).sum = ps.length ∧
    ((tempBinsJS vals width).map Prod.snd).sum = vals.length := by
  refine ⟨?_, ?_, ?_⟩
  · rw [tempBins, computeHistogramQ_sum_counts, List.length_map]
  · rw [salBins, computeHistogramQ_sum_counts, List.length_map]
  · rw [tempBinsJS]
    rw [((sortBy_perm _ _).map Prod.snd).sum_eq]
    exact sum_counts_accumBy _ _

/-- Claim C8 counterexample: for the single-record input whose temperature
is `null`, the bin counts sum to 1 while the number of records with a
non-null field is 0 — the claimed equality fails. -/
theorem bin_counts_nonnull_cex :
    ¬ (((tempBinsJS [none] 1).map Prod.snd).sum =
        (([none] : List (Option ℚ)).filter (fun v => v.isSome)).length) ∧
    ((tempBinsJS [none] 1).map Prod.snd).sum = 1 ∧
    (([none] : List (Option ℚ)).filter (fun v => v.isSome)).length = 0 := by
  have h1 : ((tempBinsJS [none] 1).map Prod.snd).sum = 1 := by
    norm_num [tempBinsJS, accumBy, upsertAcc, bucketOf, jsNum, sortBy, insertBy]
  refine ⟨?_, h1, rfl⟩
  rw [h1]
  simp

theorem charListLe_total : ∀ s t : List Char,
    charListLe s t = true ∨ charListLe t s = true
  | [], _ => Or.inl rfl
  | _ :: _, [] => Or.inr rfl
  | a :: as, b :: bs => by
    by_cases hab : a = b
    · subst hab
      simp only [charListLe, if_pos rfl]
      exact charListLe_total as bs
    · rcases lt_trichotomy a b with h | h | h
      · exact Or.inl (by simp [charListLe, hab, h])
      · exact absurd h hab
      · exact Or.inr (by simp [charListLe, Ne.symm hab, h])

theorem charListLe_trans : ∀ s t u : List Char,
    charListLe s t = true → charListLe t u = true → charListLe s u = true
  | [], _, _, _, _ => rfl
  | a :: as, [], u, h1, _ => by simp [charListLe] at h1
  | a :: as, b :: bs, [], _, h2 => by simp [charListLe] at h2
  | a :: as, b :: bs, c :: cs, h1, h2 => by
    by_cases hab : a = b <;> by_cases hbc : b = c
    · subst hab
      subst hbc
      simp only [charListLe, if_pos rfl] at h1 h2 ⊢
      exact charListLe_trans as bs cs h1 h2
    · subst hab
      simpa [charListLe, hbc] using h2
    · subst hbc
      simpa [charListLe, hab] using h1
    · simp only [charListLe, if_neg hab, if_neg hbc, decide_eq_true_eq] at h1 h2
      have hac : a < c := lt_trans h1 h2
      simp [charListLe, ne_of_lt hac, hac]

theorem charListLe_antisymm : ∀ s t : List Char,
    charListLe s t = true → charListLe t s = true → s = t
  | [], [], _, _ => rfl
  | [], _ :: _, _, h2 => by simp [charListLe] at h2
  | _ :: _, [], h1, _ => by simp [charListLe] at h1
  | a :: as, b :: bs, h1, h2 => by
    by_cases hab : a = b
    · subst hab
      simp only [charListLe, if_pos rfl] at h1 h2
      rw [charListLe_antisymm as bs h1 h2]
    · simp only [charListLe, if_neg hab, if_neg (Ne.symm hab), decide_eq_true_eq] at h1 h2
      exact absurd (lt_trans h1 h2) (lt_irrefl a)

theorem charListLt_of_le_of_ne : ∀ s t : List Char,
    charListLe s t = true → s ≠ t → charListLt s t = true
  | [], [], _, hne => absurd rfl hne
  | [], _ :: _, _, _ => rfl
  | _ :: _, [], h1, _ => by simp [charListLe] at h1
  | a :: as, b :: bs, h1, hne => by
    by_cases hab : a = b
    · subst hab
      simp only [charListLe, if_pos rfl] at h1
      simp only [charListLt, if_pos rfl]
      exact charListLt_of_le_of_ne as bs h1 (fun hh => hne (by rw [hh]))
    · simp only [charListLe, if_neg hab] at h1
      simp only [charListLt, if_neg hab]
      exact h1

/-- Strings with equal character lists are equal. -/
theorem stringDataInj {s t : String} (h : s.data = t.data) : s = t := by
  cases s
  cases t
  exact congrArg String.mk (by simpa using h)

theorem monthlySeriesG_keys_nodup (ym : α → String) (value : α → ℚ) (rows : List α) :
    ((monthlySeriesG ym value rows).map Prod.fst).Nodup := by
  rw [monthlySeriesG]
  rw [List.Perm.nodup_iff ((sortBy_perm _ _).map Prod.fst)]
  rw [List.map_map]
  have h := nodup_keys_accumBy ym (fun a sn => (sn.1 + value a, sn.2 + 1))
    (fun a => (value a, (1 : ℕ))) rows
  convert h using 2

theorem monthlySeriesG_pairwise_lt (ym : α → String) (value : α → ℚ) (rows : List α) :
    (monthlySeriesG ym value rows).Pairwise
      (fun x y => charListLt x.1.data y.1.data = true) := by
  have hle : (monthlySeriesG ym value rows).Pairwise
      (fun x y : String × ℚ => charListLe x.1.data y.1.data = true) := by
    rw [monthlySeriesG]
    exact sortBy_pairwise (fun x y : String × ℚ => charListLe x.1.data y.1.data = true)
      (fun a b => charListLe_total a.1.data b.1.data)
      (fun a b c h1 h2 => charListLe_trans a.1.data b.1.data c.1.data h1 h2) _
  have hne : (monthlySeriesG ym value rows).Pairwise (fun x y => x.1 ≠ y.1) :=
    List.pairwise_map.1 (monthlySeriesG_keys_nodup ym value rows)
  refine (hle.and hne).imp ?_
  rintro a b ⟨h1, h2⟩
  exact charListLt_of_le_of_ne _ _ h1 (fun hd => h2 (stringDataInj hd))

theorem monthlySeriesG_mem_keys (ym : α → String) (value : α → ℚ) (rows : List α)
    (k : String) :
    k ∈ (monthlySeriesG ym value rows).map Prod.fst ↔ ∃ a ∈ rows, ym a = k := by
  rw [monthlySeriesG]
  rw [((sortBy_perm _ _).map Prod.fst).mem_iff, List.map_map]
  have h := mem_keys_accumBy ym (fun a sn => (sn.1 + value a, sn.2 + 1))
    (fun a => (value a, (1 : ℕ))) rows k
  rw [← h]
  constructor
  · intro hm
    rcases List.mem_map.1 hm with ⟨e, he, heq⟩
    exact List.mem_map.2 ⟨e, he, heq⟩
  · intro hm
    rcases List.mem_map.1 hm with ⟨e, he, heq⟩
    exact List.mem_map.2 ⟨e, he, heq⟩

theorem monthlySeriesG_mem_iff (ym : α → String) (value : α → ℚ) (rows : List α)
    (k : String) (v : ℚ) :
    (k, v) ∈ monthlySeriesG ym value rows ↔
      (rows.filter (fun a => ym a = k) ≠ [] ∧
        v = ((rows.filter (fun a => ym a = k)).map value).sum /
            ((rows.filter (fun a => ym a = k)).length : ℚ)) := by
  rw [monthlySeriesG, mem_sortBy, List.mem_map]
  constructor
  · rintro ⟨⟨k', sn⟩, he, heq⟩
    have hk : k' = k := congrArg Prod.fst heq
    subst hk
    have hv : v = sn.1 / (sn.2 : ℚ) := (congrArg Prod.snd heq).symm
    rw [mem_accumBy_iff] at he
    rcases hf : rows.filter (fun a => decide (ym a = k')) with - | ⟨x, xs⟩
    · rw [hf] at he
      simp [runAcc] at he
    · rw [hf, runAcc_sum_count_cons] at he
      have hsn := Option.some.inj he
      constructor
      · simp
      · rw [hv, ← hsn]
  · rintro ⟨hne, hv⟩
    refine ⟨(k, ((rows.filter (fun a => decide (ym a = k))).map value).sum,
      (rows.filter (fun a => decide (ym a = k))).length), ?_, ?_⟩
    · rw [mem_accumBy_iff]
      rcases hf : rows.filter (fun a => decide (ym a = k)) with - | ⟨x, xs⟩
      · exact absurd hf hne
      · rw [runAcc_sum_count_cons]
    · dsimp only
      rw [hv]

theorem timeSeriesOf_proj (value : Profile → ℚ) (ps : List Profile) (mw : ℚ) :
    (timeSeriesOf value ps mw).map (fun r => (r.1, r.2.1)) = monthlySeries value ps := by
  rw [timeSeriesOf]
  apply List.ext_getElem
  · simp
  · intro i h1 h2
    simp [List.getElem_mapIdx, smoothOne]

/-- Claim C6 (amended): for every input record set, the monthly series
underlying `timeSeriesTemp`/`timeSeriesSal` contains exactly one point per
distinct calendar month present in the data (months without records produce
no entry), the average of each point is the mean of the field values of the
records of that month, and the `yearMonthKey` sequence — preserved unchanged in
the smoothed output — is strictly increasing under lexicographic
(code-point) string comparison. That order coincides with chronological
order only when all year values render with equally many digits (e.g. all
four-digit years); with years of different decimal lengths (999 vs 1000) the
output is lexicographically sorted but not chronological. -/
theorem monthly_series_points (value : Profile → ℚ) (ps : List Profile) (mw : ℚ) :
    ((timeSeriesOf value ps mw).map (fun r => (r.1, r.2.1)) = monthlySeries value ps) ∧
    ((monthlySeries value ps).map Prod.fst).Nodup ∧
    (∀ k, k ∈ (monthlySeries value ps).map Prod.fst ↔
      ∃ p ∈ ps, ymKey p.year p.month = k) ∧
    (∀ k v, (k, v) ∈ monthlySeries value ps ↔
      (ps.filter (fun p => ymKey p.year p.month = k) ≠ [] ∧
        v = ((ps.filter (fun p => ymKey p.year p.month = k)).map value).sum /
            ((ps.filter (fun p => ymKey p.year p.month = k)).length : ℚ))) ∧
    (monthlySeries value ps).Pairwise (fun x y => charListLt x.1.data y.1.data = true) ∧
    (timeSeriesOf value ps mw).Pairwise (fun x y => charListLt x.1.data y.1.data = true) ∧
    timeSeriesTemp ps mw = timeSeriesOf Profile.temperature ps mw ∧
    timeSeriesSal ps mw = timeSeriesOf Profile.salinity ps mw := by
  have hproj := timeSeriesOf_proj value ps mw
  have hpw := monthlySeriesG_pairwise_lt (fun p => ymKey p.year p.month) value ps
  refine ⟨hproj, monthlySeriesG_keys_nodup _ _ _,
    fun k => monthlySeriesG_mem_keys _ _ _ k,
    fun k v => monthlySeriesG_mem_iff _ _ _ k v, hpw, ?_, rfl, rfl⟩
  have hpw2 : ((timeSeriesOf value ps mw).map (fun r => (r.1, r.2.1))).Pairwise
      (fun x y : String × ℚ => charListLt x.1.data y.1.data = true) := by
    rw [hproj]
    exact hpw
  exact List.pairwise_map.1 hpw2

/-- Witness for the amended C6 at a one-record input: the month key
`2024-01` is present, and the average of the point is the value of the record. -/
theorem monthly_series_points_witness :
    (∃ p ∈ [mkProfile 1 0 5 5 1 2024], ymKey p.year p.month = "2024-01") ∧
    "2024-01" ∈ (monthlySeries Profile.temperature [mkProfile 1 0 5 5 1 2024]).map
      Prod.fst := by
  have h := monthly_series_points Profile.temperature [mkProfile 1 0 5 5 1 2024] 1
  have hp : ∃ p ∈ [mkProfile 1 0 5 5 1 2024], ymKey p.year p.month = "2024-01" :=
    ⟨mkProfile 1 0 5 5 1 2024, List.mem_singleton_self _, by decide⟩
  exact ⟨hp, (h.2.2.1 "2024-01").2 hp⟩

/-- Claim C6 counterexample: with records in month 999-06 and month 1000-01
the output key sequence is `["1000-01", "999-06"]` — lexicographically
increasing, but the chronologically earlier month (999-06 precedes 1000-01)
comes second, so the sort order does not coincide with chronological
order. -/
theorem ym_lex_not_chrono_cex :
    (timeSeriesTemp [mkProfile 1 0 0 0 6 999, mkProfile 2 0 0 0 1 1000] 1).map
      (fun r => r.1) = ["1000-01", "999-06"] ∧
    ymKey 999 6 = "999-06" ∧ ymKey 1000 1 = "1000-01" ∧ chronoLT 999 6 1000 1 := by
  have hk1 : ymKey 999 6 = "999-06" := by decide
  have hk2 : ymKey 1000 1 = "1000-01" := by decide
  have hcmp : charListLe "999-06".data "1000-01".data = false := by decide
  have hwe : wEff 1 = 1 := by
    have h1 : ⌊(1 : ℚ)⌋ = 1 := by norm_num
    rw [wEff, h1]
    rfl
  refine ⟨?_, hk1, hk2, Or.inl (by norm_num)⟩
  norm_num [timeSeriesTemp, timeSeriesOf, monthlySeries, monthlySeriesG, accumBy,
    upsertAcc, mkProfile, hk1, hk2, sortBy, insertBy, hcmp, smoothOne, windowStartIdx,
    windowLen, windowStopIdx, halfOf, hwe, List.mapIdx_cons]

theorem wEff_pos (mw : ℚ) : 1 ≤ wEff mw := by
  rw [wEff]
  omega

theorem sum_take_drop (l : List ℚ) (a b : ℕ) (h : a + b ≤ l.length) :
    ((l.drop a).take b).sum = ∑ j ∈ Finset.Ico a (a + b), l.getD j 0 := by
  induction b with
  | zero => simp
  | succ n ih =>
    have h' : a + n ≤ l.length := by omega
    have hlt : n < (l.drop a).length := by
      rw [List.length_drop]
      omega
    rw [List.sum_take_succ _ n hlt, ih h']
    rw [List.getElem_drop]
    rw [show a + (n + 1) = (a + n) + 1 by omega]
    rw [Finset.sum_Ico_succ_top (by omega)]
    rw [List.getD_eq_getElem l 0 (by omega : a + n < l.length)]

theorem smooth_ma_formula (series : List (String × ℚ)) (half i : ℕ)
    (hi : i < series.length) :
    (series.mapIdx (fun j row => smoothOne series half j row)).getD i ("", 0, 0) =
      ((series.getD i ("", 0)).1, (series.getD i ("", 0)).2,
        (∑ j ∈ Finset.Icc (windowStartIdx half i) (windowStopIdx series.length half i),
          (series.map Prod.snd).getD j 0) / (windowLen series.length half i : ℚ)) := by
  have hlen : i < (series.mapIdx (fun j row => smoothOne series half j row)).length := by
    simpa using hi
  rw [List.getD_eq_getElem _ _ hlen, List.getElem_mapIdx, List.getD_eq_getElem _ _ hi]
  have hstart_le : windowStartIdx half i ≤ i := Nat.sub_le i half
  have hstop_ge : i ≤ windowStopIdx series.length half i := by
    rw [windowStopIdx]
    refine le_min (by omega) (Nat.le_add_right i half)
  have hrange : windowStartIdx half i + windowLen series.length half i ≤
      series.length := by
    simp only [windowLen, windowStopIdx, windowStartIdx] at hstop_ge ⊢
    omega
  have h1 : (((series.drop (windowStartIdx half i)).take
      (windowLen series.length half i)).map Prod.snd).sum =
      ∑ j ∈ Finset.Icc (windowStartIdx half i) (windowStopIdx series.length half i),
        (series.map Prod.snd).getD j 0 := by
    rw [List.map_take, List.map_drop]
    rw [sum_take_drop _ _ _ (by rw [List.length_map]; exact hrange)]
    have heq : windowStartIdx half i + windowLen series.length half i =
        windowStopIdx series.length half i + 1 := by
      simp only [windowLen, windowStopIdx, windowStartIdx] at hstop_ge ⊢
      omega
    rw [heq, Nat.Ico_succ_right]
  have h2 : ((series.drop (windowStartIdx half i)).take
      (windowLen series.length half i)).length = windowLen series.length half i := by
    rw [List.length_take, List.length_drop]
    omega
  simp only [smoothOne]
  rw [h1, h2]

theorem window_boundary_arith (w n : ℕ) (hw : 1 ≤ w) (hn : w < n) :
    windowStartIdx ((w - 1) / 2) 0 = 0 ∧
    windowStopIdx n ((w - 1) / 2) 0 = (w - 1) / 2 ∧
    windowStopIdx n ((w - 1) / 2) 0 ≤ n - 1 ∧
    windowLen n ((w - 1) / 2) 0 = (w - 1) / 2 + 1 ∧
    windowStartIdx ((w - 1) / 2) (n - 1) = n - 1 - (w - 1) / 2 ∧
    windowStopIdx n ((w - 1) / 2) (n - 1) = n - 1 ∧
    windowLen n ((w - 1) / 2) (n - 1) = (w - 1) / 2 + 1 ∧
    windowLen n ((w - 1) / 2) 0 ≤ 2 * ((w - 1) / 2) + 1 ∧
    (3 ≤ w → windowLen n ((w - 1) / 2) 0 < 2 * ((w - 1) / 2) + 1) ∧
    (w ≤ 2 → windowLen n ((w - 1) / 2) 0 = 2 * ((w - 1) / 2) + 1) := by
  refine ⟨?_, ?_, ?_, ?_, ?_, ?_, ?_, ?_, ?_, ?_⟩ <;>
    simp only [windowLen, windowStopIdx, windowStartIdx] <;> omega

/-- Claim C4 (amended): with `w = max(1, floor(windowSize))` and
`half = floor((w-1)/2)`, the moving-average window at series index `i` is
exactly the inclusive index slice `[max(0, i-half), min(n-1, i+half)]` and
the smoothed value is the mean of the per-month averages over it. For every
series of length `n > w` the windows at index 0 and index `n-1` stay in
range and have length `half + 1`; that boundary length is at most the
interior window length `2*half + 1`, strictly less when `w ≥ 3`, but
**equal** to it when `w ≤ 2` (then `half = 0` and both are 1). -/
theorem smoother_window_boundary (value : Profile → ℚ) (ps : List Profile) (mw : ℚ)
    (n half : ℕ) (hn : n = (monthlySeries value ps).length)
    (hh : half = halfOf (wEff mw)) :
    (∀ i, i < n →
      (timeSeriesOf value ps mw).getD i ("", 0, 0) =
        (((monthlySeries value ps).getD i ("", 0)).1,
          ((monthlySeries value ps).getD i ("", 0)).2,
          (∑ j ∈ Finset.Icc (windowStartIdx half i) (windowStopIdx n half i),
            ((monthlySeries value ps).map Prod.snd).getD j 0) /
            (windowLen n half i : ℚ))) ∧
    (wEff mw < n →
      windowStartIdx half 0 = 0 ∧
      windowStopIdx n half 0 = half ∧
      windowStopIdx n half 0 ≤ n - 1 ∧
      windowLen n half 0 = half + 1 ∧
      windowStartIdx half (n - 1) = n - 1 - half ∧
      windowStopIdx n half (n - 1) = n - 1 ∧
      windowLen n half (n - 1) = half + 1 ∧
      windowLen n half 0 ≤ 2 * half + 1 ∧
      (3 ≤ wEff mw → windowLen n half 0 < 2 * half + 1) ∧
      (wEff mw ≤ 2 → windowLen n half 0 = 2 * half + 1)) := by
  subst hn
  subst hh
  constructor
  · intro i hi
    exact smooth_ma_formula (monthlySeries value ps) (halfOf (wEff mw)) i hi
  · intro hlt
    have hw : 1 ≤ wEff mw := wEff_pos mw
    have h := window_boundary_arith (wEff mw) (monthlySeries value ps).length hw hlt
    simpa [halfOf] using h

/-- Witness for the amended C4: four distinct months with window size 3
(`half = 1`): the boundary window has length 2, strictly less than the
interior length 3. -/
theorem smoother_window_boundary_witness :
    (4 : ℕ) = (monthlySeries Profile.temperature psW4).length ∧
    (1 : ℕ) = halfOf (wEff 3) ∧ wEff 3 < 4 ∧
    windowLen 4 1 0 = 2 ∧ windowLen 4 1 0 < 2 * 1 + 1 ∧
    windowLen 4 1 3 = 2 ∧ windowStopIdx 4 1 3 = 3 := by
  have hw3 : wEff 3 = 3 := by
    have h3 : ⌊(3 : ℚ)⌋ = 3 := by norm_num
    rw [wEff, h3]
    rfl
  have hlen : (4 : ℕ) = (monthlySeries Profile.temperature psW4).length := by decide
  have hhalf : (1 : ℕ) = halfOf (wEff 3) := by
    rw [hw3]
    rfl
  have h := (smoother_window_boundary Profile.temperature psW4 3 4 1 hlen hhalf).2
    (by rw [hw3]; norm_num)
  exact ⟨hlen, hhalf, by rw [hw3]; norm_num, h.2.2.2.1,
    h.2.2.2.2.2.2.2.2.1 (by rw [hw3]), h.2.2.2.2.2.2.1, h.2.2.2.2.2.1⟩

/-- Claim C4 counterexample: with two months and window size 1 (`n = 2 >
1 = w`, `half = 0`) the boundary window length equals the interior window
length `2*half + 1 = 1` — it is not strictly less. -/
theorem smoother_window_strict_cex :
    (monthlySeries Profile.temperature
      [mkProfile 1 0 0 0 6 999, mkProfile 2 0 0 0 1 1000]).length = 2 ∧
    wEff 1 = 1 ∧ halfOf (wEff 1) = 0 ∧
    ¬ (windowLen 2 (halfOf (wEff 1)) 0 < 2 * halfOf (wEff 1) + 1) ∧
    windowLen 2 (halfOf (wEff 1)) 0 = 2 * halfOf (wEff 1) + 1 := by
  have hw1 : wEff 1 = 1 := by
    have h1 : ⌊(1 : ℚ)⌋ = 1 := by norm_num
    rw [wEff, h1]
    rfl
  have hlen : (monthlySeries Profile.temperature
      [mkProfile 1 0 0 0 6 999, mkProfile 2 0 0 0 1 1000]).length = 2 := by decide
  refine ⟨hlen, hw1, by rw [hw1]; rfl, ?_, ?_⟩ <;> rw [hw1] <;> decide

/-- With `half = 0` (window size 1 or 2) every moving-average slice is the
single point itself, so the smoothed column equals the average column. -/
theorem timeSeries_half_zero (value : Profile → ℚ) (ps : List Profile) (mw : ℚ)
    (h : halfOf (wEff mw) = 0) :
    timeSeriesOf value ps mw =
      (monthlySeries value ps).map (fun r => (r.1, r.2, r.2)) := by
  rw [timeSeriesOf, h]
  apply List.ext_getElem
  · simp
  · intro i h1 h2
    have hi : i < (monthlySeries value ps).length := by simpa using h2
    have hf := smooth_ma_formula (monthlySeries value ps) 0 i hi
    rw [List.getElem_map, ← List.getD_eq_getElem _ ("", (0 : ℚ), (0 : ℚ)) h1, hf]
    rw [List.getD_eq_getElem _ _ hi]
    have hstart : windowStartIdx 0 i = i := Nat.sub_zero i
    have hstop : windowStopIdx (monthlySeries value ps).length 0 i = i := by
      simp only [windowStopIdx]
      omega
    have hlen1 : windowLen (monthlySeries value ps).length 0 i = 1 := by
      simp only [windowLen, hstop, hstart]
      omega
    rw [hstart, hstop, hlen1, Finset.Icc_self, Finset.sum_singleton]
    rw [List.getD_eq_getElem _ _ (by simpa using hi), List.getElem_map]
    simp

/-- Claim C10 (confirmed): whenever the coerced window size
`w = max(1, floor(windowSize))` is 1 or 2, `half = 0`, every slice is the
single point `[i]`, and `smoothedAverage` equals `average` at every point;
in particular `windowSize = 2` performs no smoothing at all, identical to
`windowSize = 1`. -/
theorem small_window_identity (ps : List Profile) (mw : ℚ)
    (h : wEff mw = 1 ∨ wEff mw = 2) :
    timeSeriesTemp ps mw =
      (monthlySeries Profile.temperature ps).map (fun r => (r.1, r.2, r.2)) ∧
    timeSeriesTemp ps mw = timeSeriesTemp ps 1 ∧
    (∀ e ∈ timeSeriesTemp ps mw, e.2.2 = e.2.1) ∧
    timeSeriesSal ps mw =
      (monthlySeries Profile.salinity ps).map (fun r => (r.1, r.2, r.2)) ∧
    timeSeriesSal ps mw = timeSeriesSal ps 1 ∧
    (∀ e ∈ timeSeriesSal ps mw, e.2.2 = e.2.1) := by
  have hhalf : halfOf (wEff mw) = 0 := by
    rcases h with h | h <;> rw [halfOf, h]
  have hone : halfOf (wEff 1) = 0 := by
    have h1 : ⌊(1 : ℚ)⌋ = 1 := by norm_num
    rw [halfOf, wEff, h1]
    rfl
  have ht := timeSeries_half_zero Profile.temperature ps mw hhalf
  have ht1 := timeSeries_half_zero Profile.temperature ps 1 hone
  have hs := timeSeries_half_zero Profile.salinity ps mw hhalf
  have hs1 := timeSeries_half_zero Profile.salinity ps 1 hone
  refine ⟨ht, ?_, ?_, hs, ?_, ?_⟩
  · rw [timeSeriesTemp, timeSeriesTemp, ht, ht1]
  · intro e he
    rw [timeSeriesTemp, ht] at he
    rcases List.mem_map.1 he with ⟨r, -, rfl⟩
    rfl
  · rw [timeSeriesSal, timeSeriesSal, hs, hs1]
  · intro e he
    rw [timeSeriesSal, hs] at he
    rcases List.mem_map.1 he with ⟨r, -, rfl⟩
    rfl

/-- Witness for C10: window size 2 on a two-month input is identical to
window size 1. -/
theorem small_window_identity_witness :
    (wEff 2 = 1 ∨ wEff 2 = 2) ∧
    timeSeriesTemp [mkProfile 1 0 0 0 6 999, mkProfile 2 0 0 0 1 1000] 2 =
      timeSeriesTemp [mkProfile 1 0 0 0 6 999, mkProfile 2 0 0 0 1 1000] 1 := by
  have hw : wEff 2 = 2 := by
    have h2 : ⌊(2 : ℚ)⌋ = 2 := by norm_num
    rw [wEff, h2]
    rfl
  have h := small_window_identity [mkProfile 1 0 0 0 6 999, mkProfile 2 0 0 0 1 1000]
    2 (Or.inr hw)
  exact ⟨Or.inr hw, h.2.1⟩

theorem depthDistribution_len (ps : List Profile) :
    (depthDistribution ps).length = ((ps.map Profile.depth).dedup).length := by
  have h1 : ((depthDistribution ps).map Prod.fst).Nodup := nodup_keys_accumBy _ _ _ _
  have h2 : ((ps.map Profile.depth).dedup).Nodup := List.nodup_dedup _
  have hmem : ∀ d, d ∈ (depthDistribution ps).map Prod.fst ↔
      d ∈ (ps.map Profile.depth).dedup := by
    intro d
    rw [List.mem_dedup, depthDistribution, mem_keys_accumBy, List.mem_map]
  have hperm := (List.perm_ext_iff_of_nodup h1 h2).2 hmem
  have hl := hperm.length_eq
  simpa using hl

/-- Claim C9 (amended): `depthDistribution` groups records by **exact**
depth value with exact occurrence counts; `depthData` relabels each entry
with the integer truncation of its depth (`parseInt` of the stringified
number) and sorts ascending by that truncated label. So each output
depth is the truncation of a depth value occurring in the input (not
necessarily the value itself), distinct input depth values yield separate
entries with their exact counts — entries whose depths share a truncation
carry equal labels — and the list is sorted (non-strictly) ascending. -/
theorem depthData_truncated (ps : List Profile) :
    (depthData ps).Pairwise (fun x y => x.1 ≤ y.1) ∧
    ((depthData ps).map Prod.snd).sum = ps.length ∧
    (∀ e ∈ depthData ps, ∃ d : ℚ, (∃ p ∈ ps, p.depth = d) ∧ e.1 = truncQ d ∧
      e.2 = (ps.filter (fun p => p.depth = d)).length) ∧
    (depthData ps).length = ((ps.map Profile.depth).dedup).length := by
  refine ⟨?_, ?_, ?_, ?_⟩
  · rw [depthData]
    exact sortBy_pairwise (fun x y : ℤ × ℕ => x.1 ≤ y.1)
      (fun a b => le_total a.1 b.1) (fun a b c hab hbc => le_trans hab hbc) _
  · rw [depthData]
    rw [((sortBy_perm _ _).map Prod.snd).sum_eq, List.map_map]
    have hcomp : Prod.snd ∘ (fun e : ℚ × ℕ => (truncQ e.1, e.2)) = Prod.snd := rfl
    rw [hcomp, depthDistribution]
    exact sum_counts_accumBy _ _
  · intro e he
    rw [depthData, mem_sortBy, List.mem_map] at he
    obtain ⟨⟨d, c⟩, hd, rfl⟩ := he
    rw [depthDistribution, mem_accumBy_iff] at hd
    rcases hf : ps.filter (fun p => decide (p.depth = d)) with - | ⟨x, xs⟩
    · rw [hf] at hd
      simp [runAcc] at hd
    · rw [hf, runAcc_count_cons] at hd
      have hc := Option.some.inj hd
      have hx : x ∈ ps.filter (fun p => decide (p.depth = d)) := by
        rw [hf]
        exact List.mem_cons_self _ _
      rw [List.mem_filter] at hx
      refine ⟨d, ⟨x, hx.1, by simpa using hx.2⟩, rfl, ?_⟩
      rw [hf, ← hc]
  · rw [depthData, (sortBy_perm _ _).length_eq, List.length_map]
    exact depthDistribution_len ps

/-- Witness for the amended C9: the single record of depth 10.5 produces an
entry labelled 10 with count 1, the truncation of the input depth. -/
theorem depthData_truncated_witness :
    ((10 : ℤ), 1) ∈ depthData [mkProfile 1 (21/2) 0 0 1 2024] ∧
    (∃ d : ℚ, (∃ p ∈ [mkProfile 1 (21/2) 0 0 1 2024], p.depth = d) ∧
      (10 : ℤ) = truncQ d ∧
      1 = ([mkProfile 1 (21/2) 0 0 1 2024].filter (fun p => p.depth = d)).length) := by
  have heval : depthData [mkProfile 1 (21/2) 0 0 1 2024] = [((10 : ℤ), 1)] := by
    norm_num [depthData, depthDistribution, accumBy, upsertAcc, truncQ, sortBy,
      insertBy, mkProfile]
  have hmem : ((10 : ℤ), 1) ∈ depthData [mkProfile 1 (21/2) 0 0 1 2024] := by
    rw [heval]
    exact List.mem_singleton_self _
  have h := (depthData_truncated [mkProfile 1 (21/2) 0 0 1 2024]).2.2.1 _ hmem
  exact ⟨hmem, h⟩

/-- Claim C9 counterexample: the record of depth 10.5 yields the output
entry `(10, 1)` — `10` is not an exact depth value occurring in the input,
it is `parseInt` of the stringified depth. -/
theorem depthData_parseInt_cex :
    depthData [mkProfile 1 (21/2) 0 0 1 2024] = [((10 : ℤ), 1)] ∧
    (mkProfile 1 (21/2) 0 0 1 2024).depth ≠ ((10 : ℤ) : ℚ) := by
  constructor
  · norm_num [depthData, depthDistribution, accumBy, upsertAcc, truncQ, sortBy,
      insertBy, mkProfile]
  · norm_num [mkProfile]
